import Mathlib

/-!
A verification development for the tokligence-works coordination core.

The TypeScript sources are modelled by a shallow embedding:

* JavaScript `Map` objects become insertion-ordered association lists
  (`mapGet` / `mapSet` / `mapDelete`), and `Set` objects become
  duplicate-free insertion-ordered lists (`setAdd` / `setDelete`).
* `Date.now()` values are threaded in as explicit `Nat` parameters.
* JavaScript truthiness tests on optional numbers/strings are modelled by
  `optNatTruthy` / `optStrTruthy` (`0`, `""` and `undefined` are falsy).
* Async lifecycle hooks (`onCreate`/`onStart`/`onComplete`/`onFail`) never
  change the local state of the structures modelled here (hook failures are
  caught and logged in the source), so they are omitted from the embedding.
-/

namespace TokWorks

/-- `Map.get`: first binding for the key, if any. -/
def mapGet {α : Type} (m : List (String × α)) (k : String) : Option α :=
  match m with
  | [] => none
  | (k', v) :: rest => if k' = k then some v else mapGet rest k

/-- `Map.set`: overwrite in place if the key exists, else append
(JavaScript `Map` keeps the original insertion position on overwrite). -/
def mapSet {α : Type} (m : List (String × α)) (k : String) (v : α) : List (String × α) :=
  match m with
  | [] => [(k, v)]
  | (k', v') :: rest => if k' = k then (k, v) :: rest else (k', v') :: mapSet rest k v

/-- `Map.delete`: drop the first binding for the key. -/
def mapDelete {α : Type} (m : List (String × α)) (k : String) : List (String × α) :=
  match m with
  | [] => []
  | (k', v') :: rest => if k' = k then rest else (k', v') :: mapDelete rest k

/-- `Set.add`: append unless already present. -/
def setAdd (s : List String) (x : String) : List String :=
  if x ∈ s then s else s ++ [x]

/-- `Set.delete`: remove the entry for `x` (sets hold no duplicates). -/
def setDelete (s : List String) (x : String) : List String :=
  s.filter (fun y => y ≠ x)

/-- JavaScript truthiness of an optional number (`undefined` and `0` are falsy). -/
def optNatTruthy : Option Nat → Bool
  | some n => if n = 0 then false else true
  | none => false

/-- JavaScript truthiness of an optional string (`undefined` and `""` are falsy). -/
def optStrTruthy : Option String → Bool
  | some s => if s = "" then false else true
  | none => false

/-- Whether the character list `s` starts with `pat`. -/
def charsStartWith : List Char → List Char → Bool
  | _, [] => true
  | [], _ :: _ => false
  | c :: cs, p :: ps => c = p && charsStartWith cs ps

/-- Whether the character list `s` contains `pat` as a contiguous run. -/
def charsContain : List Char → List Char → Bool
  | [], pat => pat.isEmpty
  | c :: rest, pat => charsStartWith (c :: rest) pat || charsContain rest pat

/-- ASCII lower-casing of a string (models `toLowerCase` on the ASCII
content these checks inspect). -/
def strLower (s : String) : String :=
  String.mk (s.data.map Char.toLower)

/-- `String.prototype.startsWith`. -/
def strStartsWith (s pat : String) : Bool :=
  charsStartWith s.data pat.data

def isJsWhitespace (c : Char) : Bool :=
  c = ' ' || c = '\t' || c = '\n' || c = '\r'

/-- `String.prototype.trim` (over the ASCII whitespace these checks meet). -/
def strTrim (s : String) : String :=
  String.mk (((s.data.dropWhile isJsWhitespace).reverse.dropWhile isJsWhitespace).reverse)

/-! ## TaskManager (src/src/orchestrator/TaskManager.ts) -/

inductive TaskStatus
  | pending
  | in_progress
  | completed
  | failed
deriving DecidableEq, Repr

structure Task where
  id : String
  description : String
  assignee : String
  assignedBy : String
  status : TaskStatus
  createdAt : Nat
  startedAt : Option Nat := none
  completedAt : Option Nat := none
  result : Option String := none
  error : Option String := none
  dependencies : List String := []
deriving DecidableEq, Repr

structure TMState where
  tasks : List (String × Task) := []
  agentTasks : List (String × List String) := []
deriving DecidableEq, Repr

/-- `createTask`: the generated id (`task-...` in the source) and the
creation time (`Date.now()`) are threaded in as parameters. -/
def createTask (st : TMState) (id : String) (now : Nat)
    (description assignee assignedBy : String) (deps : List String) : Task × TMState :=
  let task : Task :=
    { id := id, description := description, assignee := assignee,
      assignedBy := assignedBy, status := .pending, createdAt := now,
      dependencies := deps }
  let tasks := mapSet st.tasks id task
  let agentTasks :=
    match mapGet st.agentTasks assignee with
    | none => mapSet st.agentTasks assignee (setAdd [] id)
    | some s => mapSet st.agentTasks assignee (setAdd s id)
  (task, { tasks := tasks, agentTasks := agentTasks })

/-- Dependency check used by `startTask` and `getReadyTasks`. -/
def depCompleted (tasks : List (String × Task)) (depId : String) : Bool :=
  match mapGet tasks depId with
  | some dep =>
    match dep.status with
    | .completed => true
    | _ => false
  | none => false

/-- `startTask`: note that the source checks only the dependencies, not the
current status, so a completed or failed task can be moved back to
`in_progress`. -/
def startTask (st : TMState) (taskId : String) (now : Nat) : Bool × TMState :=
  match mapGet st.tasks taskId with
  | none => (false, st)
  | some task =>
    let allDepsComplete := task.dependencies.all (depCompleted st.tasks)
    if task.dependencies.length > 0 && !allDepsComplete then
      (false, st)
    else
      let task' := { task with status := .in_progress, startedAt := some now }
      (true, { st with tasks := mapSet st.tasks taskId task' })

/-- `completeTask`: succeeds only from `in_progress`. -/
def completeTask (st : TMState) (taskId : String) (now : Nat) (result : String) :
    Bool × TMState :=
  match mapGet st.tasks taskId with
  | none => (false, st)
  | some task =>
    match task.status with
    | .in_progress =>
      let task' := { task with
        status := .completed, completedAt := some now, result := some result }
      (true, { st with tasks := mapSet st.tasks taskId task' })
    | _ => (false, st)

/-- `failTask`: the source has no status guard, any existing task is failed. -/
def failTask (st : TMState) (taskId : String) (now : Nat) (err : String) :
    Bool × TMState :=
  match mapGet st.tasks taskId with
  | none => (false, st)
  | some task =>
    let task' := { task with
      status := .failed, completedAt := some now, error := some err }
    (true, { st with tasks := mapSet st.tasks taskId task' })

/-- The mutation `completeTasksForAgent` applies to one non-completed task:
stamp `startedAt` if it was falsy, mark completed, stamp `completedAt`, and
record the shared result if it is truthy. -/
def completedVersion (now : Nat) (result : Option String) (task : Task) : Task :=
  let task1 := if optNatTruthy task.startedAt then task
               else { task with startedAt := some now }
  let task2 := { task1 with status := TaskStatus.completed, completedAt := some now }
  if optStrTruthy result then { task2 with result := result } else task2

/-- One iteration of the loop in `completeTasksForAgent`: the accumulator is
the live `tasks` map together with the agent's (mutated) task-id set. -/
def completeAgentStep (now : Nat) (result : Option String)
    (acc : List (String × Task) × List String) (taskId : String) :
    List (String × Task) × List String :=
  match mapGet acc.1 taskId with
  | none => (acc.1, setDelete acc.2 taskId)
  | some task =>
    match task.status with
    | .completed => (acc.1, setDelete acc.2 taskId)
    | _ => (mapSet acc.1 taskId (completedVersion now result task),
            setDelete acc.2 taskId)

/-- `completeTasksForAgent`: iterates a snapshot of the agent's task-id set,
completing every task whose status is not `completed` (including `failed`
ones) and deleting every id from the set. -/
def completeTasksForAgent (st : TMState) (agentId : String) (now : Nat)
    (result : Option String) : TMState :=
  match mapGet st.agentTasks agentId with
  | none => st
  | some taskIds =>
    if taskIds.length = 0 then st
    else
      let acc := taskIds.foldl (completeAgentStep now result) (st.tasks, taskIds)
      { tasks := acc.1, agentTasks := mapSet st.agentTasks agentId acc.2 }

def getActiveTasksForAgent (st : TMState) (agentId : String) : List Task :=
  match mapGet st.agentTasks agentId with
  | none => []
  | some taskIds =>
    taskIds.filterMap (fun taskId =>
      match mapGet st.tasks taskId with
      | some task =>
        match task.status with
        | .completed => none
        | .failed => none
        | _ => some task
      | none => none)

def hasActiveTask (st : TMState) (agentId : String) : Bool :=
  (getActiveTasksForAgent st agentId).length > 0

def getTask (st : TMState) (taskId : String) : Option Task :=
  mapGet st.tasks taskId

/-- The TaskManager operations quantified over by the status claims. -/
inductive TMOp
  | create (id : String) (now : Nat) (description assignee assignedBy : String)
      (deps : List String)
  | start (id : String) (now : Nat)
  | complete (id : String) (now : Nat) (result : String)
  | completeForAgent (agentId : String) (now : Nat) (result : Option String)
  | fail (id : String) (now : Nat) (err : String)
deriving DecidableEq, Repr

def applyTMOp (st : TMState) : TMOp → TMState
  | .create id now d a ab deps => (createTask st id now d a ab deps).2
  | .start id now => (startTask st id now).2
  | .complete id now r => (completeTask st id now r).2
  | .completeForAgent a now r => completeTasksForAgent st a now r
  | .fail id now e => (failTask st id now e).2

def runTM (st : TMState) : List TMOp → TMState
  | [] => st
  | op :: ops => runTM (applyTMOp st op) ops

/-- A `create` operation is fresh when its generated id is not already a key
of the task map (the source generates ids from `Date.now()` plus a random
suffix, so reuse of a live id is not intended). -/
def opFresh (st : TMState) : TMOp → Bool
  | .create id _ _ _ _ _ => (mapGet st.tasks id).isNone
  | _ => true

def freshCreates (st : TMState) : List TMOp → Bool
  | [] => true
  | op :: ops => opFresh st op && freshCreates (applyTMOp st op) ops

/-! ## ParallelExecutor (src/unnamed/part_000) -/

structure ResourceLock where
  resourceId : String
  agentId : String
  acquiredAt : Nat
deriving DecidableEq, Repr

structure PEState where
  activeAgents : List String := []
  resourceLocks : List (String × ResourceLock) := []
  maxParallelAgents : Nat := 3
deriving DecidableEq, Repr

/-- The tool-argument fields inspected by the executor (`args.path`;
`none` models an absent property, `some ""` a falsy empty string). -/
structure ToolArgs where
  path : Option String := none
deriving DecidableEq, Repr

/-- `extractResourcesFromTool`: only the `file_system` tool with a truthy
`path` yields a resource key. -/
def extractResourcesFromTool (toolName : String) (args : ToolArgs) : List String :=
  if toolName = "file_system" && optStrTruthy args.path then
    ["file:" ++ args.path.getD ""]
  else []

/-- `acquireLock`: fails if another agent holds the resource, otherwise
acquires or renews the lock (re-stamping `acquiredAt`). -/
def acquireLock (st : PEState) (resourceId agentId : String) (now : Nat) :
    Bool × PEState :=
  match mapGet st.resourceLocks resourceId with
  | some existingLock =>
    if existingLock.agentId ≠ agentId then (false, st)
    else
      (true, { st with
        resourceLocks := mapSet st.resourceLocks resourceId
          { resourceId := resourceId, agentId := agentId, acquiredAt := now } })
  | none =>
    (true, { st with
      resourceLocks := mapSet st.resourceLocks resourceId
        { resourceId := resourceId, agentId := agentId, acquiredAt := now } })

/-- `releaseLock`: an agent can only release its own lock. -/
def releaseLock (st : PEState) (resourceId agentId : String) : Bool × PEState :=
  match mapGet st.resourceLocks resourceId with
  | none => (false, st)
  | some lock =>
    if lock.agentId ≠ agentId then (false, st)
    else (true, { st with resourceLocks := mapDelete st.resourceLocks resourceId })

/-- `releaseToolLocks`: release every key derived for the call. -/
def releaseToolLocks (st : PEState) (agentId toolName : String) (args : ToolArgs) :
    PEState :=
  (extractResourcesFromTool toolName args).foldl
    (fun s r => (releaseLock s r agentId).2) st

/-- `canExecuteTool`: non-mutating pre-check of the acquisition condition. -/
def canExecuteTool (st : PEState) (agentId toolName : String) (args : ToolArgs) :
    Bool :=
  (extractResourcesFromTool toolName args).all (fun r =>
    match mapGet st.resourceLocks r with
    | some lock => if lock.agentId ≠ agentId then false else true
    | none => true)

/-- The acquisition loop of `acquireToolLocks`: on the first failure it rolls
back by releasing every derived key and reports failure. -/
def acquireLocksGo (agentId toolName : String) (args : ToolArgs) (now : Nat) :
    List String → PEState → Bool × PEState
  | [], st => (true, st)
  | r :: rest, st =>
    let res := acquireLock st r agentId now
    if res.1 then acquireLocksGo agentId toolName args now rest res.2
    else (false, releaseToolLocks res.2 agentId toolName args)

def acquireToolLocks (st : PEState) (agentId toolName : String) (args : ToolArgs)
    (now : Nat) : Bool × PEState :=
  acquireLocksGo agentId toolName args now
    (extractResourcesFromTool toolName args) st

/-! ## Scheduler (src/src/scheduler/Scheduler.ts) -/

inductive AgentLevel
  | junior
  | mid
  | senior
  | principal
deriving DecidableEq, Repr

def levelRank : AgentLevel → Nat
  | .junior => 1
  | .mid => 2
  | .senior => 3
  | .principal => 4

structure TeamMemberConfig where
  id : String
  name : String
  role : String
  level : Option AgentLevel := none
deriving DecidableEq, Repr

inductive TurnReason
  | init
  | mention
  | followup
  | review
  | human
deriving DecidableEq, Repr

/-- An `agent_turn` queue element; of its metadata only `authorId` (set on
review turns) is inspected by the properties below. -/
structure ScheduledTask where
  agentId : String
  topicId : String
  reason : TurnReason
  timestamp : Nat
  metadataAuthorId : Option String := none
deriving DecidableEq, Repr

structure SchedulerState where
  queue : List ScheduledTask := []
  teamIndex : List (String × TeamMemberConfig) := []
  teamLeadId : Option String := none
deriving DecidableEq, Repr

/-- Case-insensitive substring test, modelling the `/team lead/i` regex
(`pat` is given lowercase). -/
def containsCI (s pat : String) : Bool :=
  charsContain (strLower s).data pat.data

/-- The constructor: index members by id; the team lead is the first member
whose role matches `/team lead/i`, else the first member. -/
def initScheduler (members : List TeamMemberConfig) : SchedulerState :=
  let st := members.foldl
    (fun (st : SchedulerState) m =>
      { st with
        teamIndex := mapSet st.teamIndex m.id m,
        teamLeadId :=
          match st.teamLeadId with
          | none => if containsCI m.role "team lead" then some m.id else none
          | some l => some l })
    {}
  match st.teamLeadId, members with
  | none, m :: _ => { st with teamLeadId := some m.id }
  | _, _ => st

/-- Ordered insertion after all elements with a `≤` timestamp.  `enqueue`
in the source pushes and then sorts with the comparator
`a.timestamp - b.timestamp`; JavaScript `Array.sort` is stable, and the
stable sort of a list is computed by this left-to-right insertion. -/
def insertByTs (t : ScheduledTask) : List ScheduledTask → List ScheduledTask
  | [] => [t]
  | h :: rest =>
    if h.timestamp ≤ t.timestamp then h :: insertByTs t rest
    else t :: h :: rest

/-- Stable sort by timestamp (left-to-right insertion sort). -/
def sortByTs (l : List ScheduledTask) : List ScheduledTask :=
  l.foldl (fun acc t => insertByTs t acc) []

/-- `enqueue`: `queue.push(task)` followed by the stable timestamp sort. -/
def enqueue (st : SchedulerState) (task : ScheduledTask) : SchedulerState :=
  { st with queue := sortByTs (st.queue ++ [task]) }

/-- `dequeue`: `queue.shift()`. -/
def dequeue (st : SchedulerState) : Option ScheduledTask × SchedulerState :=
  match st.queue with
  | [] => (none, st)
  | t :: rest => (some t, { st with queue := rest })

def hasPendingTasks (st : SchedulerState) : Bool :=
  st.queue.length > 0

/-- Draining by repeated `dequeue` returns the queue front to back. -/
def drainList : List ScheduledTask → List ScheduledTask
  | [] => []
  | t :: rest => t :: drainList rest

def drain (st : SchedulerState) : List ScheduledTask :=
  drainList st.queue

/-- The `mentions.forEach((mentionedId, index) => ...)` loop: `idx` is the
original index, the timestamp is `now + idx`, and ids missing from the
roster are skipped (but still advance the index). -/
def scheduleMentionsGo (topicId : String) (now : Nat) :
    SchedulerState → List String → Nat → SchedulerState
  | st, [], _ => st
  | st, m :: rest, idx =>
    let st' :=
      if (mapGet st.teamIndex m).isSome then
        enqueue st
          { agentId := m, topicId := topicId, reason := .mention,
            timestamp := now + idx }
      else st
    scheduleMentionsGo topicId now st' rest (idx + 1)

def scheduleMentions (st : SchedulerState) (topicId : String)
    (mentions : List String) (now : Nat) : SchedulerState :=
  scheduleMentionsGo topicId now st mentions 0

/-- The rank of a member, reading `levelRank[member.level!]` (candidates in
`findReviewer` always carry a level). -/
def memberRank (m : TeamMemberConfig) : Nat :=
  match m.level with
  | some l => levelRank l
  | none => 0

/-- One step of the `teamIndex.forEach` scan in `findReviewer`. -/
def findReviewerStep (neededRank : Nat) (excludeId : String)
    (candidate : Option TeamMemberConfig) (entry : String × TeamMemberConfig) :
    Option TeamMemberConfig :=
  match entry.2.level with
  | none => candidate
  | some lvl =>
    if entry.2.id = excludeId then candidate
    else if neededRank < levelRank lvl then
      match candidate with
      | none => some entry.2
      | some c => if levelRank lvl < memberRank c then some entry.2 else candidate
    else candidate

/-- `findReviewer`: the first roster member (in index order) of minimal rank
strictly above `authorLevel`, excluding the author. -/
def findReviewer (teamIndex : List (String × TeamMemberConfig))
    (authorLevel : AgentLevel) (excludeId : String) : Option TeamMemberConfig :=
  teamIndex.foldl (findReviewerStep (levelRank authorLevel) excludeId) none

def reviewTurn (agentId topicId authorId : String) (now : Nat) : ScheduledTask :=
  { agentId := agentId, topicId := topicId, reason := .review,
    timestamp := now, metadataAuthorId := some authorId }

/-- `scheduleReviewIfNeeded`: no-op for unknown or level-less authors;
otherwise enqueue the closest superior, falling back to the team lead
unless the lead is the author. -/
def scheduleReviewIfNeeded (st : SchedulerState) (topicId authorId : String)
    (now : Nat) : SchedulerState :=
  match mapGet st.teamIndex authorId with
  | none => st
  | some author =>
    match author.level with
    | none => st
    | some authorLevel =>
      match findReviewer st.teamIndex authorLevel authorId with
      | some reviewer => enqueue st (reviewTurn reviewer.id topicId authorId now)
      | none =>
        match st.teamLeadId with
        | some leadId =>
          if leadId ≠ authorId then enqueue st (reviewTurn leadId topicId authorId now)
          else st
        | none => st

/-- `foldl enqueue`: an arbitrary batch of later enqueues. -/
def enqueueAll (st : SchedulerState) (tasks : List ScheduledTask) : SchedulerState :=
  tasks.foldl enqueue st

/-- The mention turns that `scheduleMentions` creates for `ids` starting at
index `idx`, in submission order. -/
def mentionTurns (teamIndex : List (String × TeamMemberConfig))
    (topicId : String) (now : Nat) : List String → Nat → List ScheduledTask
  | [], _ => []
  | m :: rest, idx =>
    if (mapGet teamIndex m).isSome then
      { agentId := m, topicId := topicId, reason := .mention,
        timestamp := now + idx, metadataAuthorId := none }
        :: mentionTurns teamIndex topicId now rest (idx + 1)
    else mentionTurns teamIndex topicId now rest (idx + 1)

/-- A member qualifies as reviewer for `neededRank` when it is not the
author and its seniority rank is strictly greater. -/
def qualifiesAsReviewer (neededRank : Nat) (excludeId : String)
    (m : TeamMemberConfig) : Prop :=
  m.id ≠ excludeId ∧ ∃ l, m.level = some l ∧ neededRank < levelRank l

/-! ## SessionManager (src/unnamed/part_001) -/

inductive TopicStatus
  | pending
  | in_progress
  | review
  | done
  | blocked
deriving DecidableEq, Repr

/-- The discriminant of the `ConversationEvent` union together with the
fields the status derivation inspects: the author level of a `message` and
the payload of a `status` event.  (`statusEv` models the `'status'` kind.) -/
inductive EvKind
  | message (level : Option AgentLevel)
  | toolCall
  | toolResult
  | handoff
  | statusEv (status : TopicStatus)
  | humanInput
deriving DecidableEq, Repr

structure ConversationEvent where
  topicId : String
  kind : EvKind
  body : String := ""
  timestamp : Nat := 0
deriving DecidableEq, Repr

structure TopicState where
  id : String
  title : String
  summary : String := ""
  events : List ConversationEvent := []
  status : TopicStatus := .pending
deriving DecidableEq, Repr

structure SMState where
  topics : List (String × TopicState) := []
deriving DecidableEq, Repr

def createTopic (st : SMState) (topicId title : String) : TopicState × SMState :=
  let topic : TopicState :=
    { id := topicId, title := title, summary := "", events := [],
      status := .pending }
  (topic, { topics := mapSet st.topics topicId topic })

/-- `getTopic`: unknown topic ids are implicitly created (title = id). -/
def getTopic (st : SMState) (topicId : String) : TopicState × SMState :=
  match mapGet st.topics topicId with
  | some t => (t, st)
  | none => createTopic st topicId topicId

/-- The per-topic part of `appendEvent` (lines 43-53): push the event, then
derive the status. -/
def appendEventTopic (topic : TopicState) (ev : ConversationEvent) : TopicState :=
  let t := { topic with events := topic.events ++ [ev] }
  match ev.kind with
  | .message lvl =>
    let t1 := if t.status = .pending then { t with status := .in_progress } else t
    if lvl = some .junior then { t1 with status := .review } else t1
  | .statusEv s => { t with status := s }
  | _ => t

/-- `appendEvent`: route by `event.topicId || 'general'` (`""` is falsy). -/
def appendEvent (st : SMState) (ev : ConversationEvent) : SMState :=
  let tid := if ev.topicId = "" then "general" else ev.topicId
  let res := getTopic st tid
  { topics := mapSet res.2.topics tid (appendEventTopic res.1 ev) }

/-- `topic.events.slice(-limit)`.  JavaScript `slice(-0)` is `slice(0)`:
a zero limit returns the whole array, not the last zero elements. -/
def sliceLast (l : List ConversationEvent) (limit : Nat) : List ConversationEvent :=
  if limit = 0 then l else l.drop (l.length - limit)

def getRecentEvents (st : SMState) (topicId : String) (limit : Nat) :
    List ConversationEvent × SMState :=
  let res := getTopic st topicId
  (sliceLast res.1.events limit, res.2)

def applyEventsTopic (t : TopicState) (evs : List ConversationEvent) : TopicState :=
  evs.foldl appendEventTopic t

/-! ## Orchestrator guardrail slice (src/src/orchestrator/Orchestrator.ts)

Models the state touched by the deduplication guardrail of
`processAgentOutput` (lines 191-211), `handleRepeatedMessage`,
`handleAgentError` and `handleHumanInput`: the per-agent last-message map,
the `awaitingHumanInput` flag, the `simulatedFallback` set, and the
recorded message events.  `processAgentOutput` is modelled from the point
where the sanitized content string is available; the plain-message path
(no tool call) is followed after the guardrails, and scheduler effects are
outside this state slice.  Whether `agentManager.replaceWithSimulated`
yields a stand-in (an external collaborator) is the `fallbackOk` input. -/

inductive OEvent
  | agentMsg (agentId content : String)
  | sysNotice (content : String)
  | humanMsg (content : String)
deriving DecidableEq, Repr

structure OrchState where
  lastAgentMessages : List (String × String) := []
  awaitingHumanInput : Bool := false
  simulatedFallback : List String := []
  events : List OEvent := []
deriving DecidableEq, Repr

def repeatedNotice (agentName content : String) : String :=
  "Agent " ++ agentName ++ " repeated the same response. Human guidance is required to proceed. Last response: " ++ content

/-- `handleRepeatedMessage`: emit the system notice and raise the flag. -/
def handleRepeatedMessage (st : OrchState) (agentName content : String) : OrchState :=
  { st with
    events := st.events ++ [.sysNotice (repeatedNotice agentName content)],
    awaitingHumanInput := true }

/-- `handleAgentError`: emit the error notice; on a first-time successful
substitution also clear the agent's dedup history, clear the flag, record
the substitution and emit the switch notice. -/
def handleAgentError (st : OrchState) (agentId agentName content : String)
    (fallbackOk : Bool) : OrchState :=
  let st1 := { st with
    events := st.events ++
      [.sysNotice ("Agent " ++ agentName ++ " encountered an error: " ++ content ++ ". Attempting fallback...")] }
  if !(st1.simulatedFallback.contains agentId) && fallbackOk then
    { st1 with
      lastAgentMessages := mapDelete st1.lastAgentMessages agentId,
      awaitingHumanInput := false,
      simulatedFallback := st1.simulatedFallback ++ [agentId],
      events := st1.events ++
        [.sysNotice ("Agent " ++ agentName ++ " has been switched to a simulated mode for this session.")] }
  else st1

/-- `processAgentOutput` from the sanitized content onward (lines 193-211
plus the message append of the plain path). -/
def processAgentOutput (st : OrchState) (agentId agentName sanitized : String)
    (fallbackOk : Bool) : OrchState :=
  if sanitized = "" then
    handleRepeatedMessage st agentName "(empty response after sanitization)"
  else if mapGet st.lastAgentMessages agentId = some sanitized then
    handleRepeatedMessage st agentName sanitized
  else
    let st1 := { st with
      lastAgentMessages := mapSet st.lastAgentMessages agentId sanitized }
    if strStartsWith (strLower sanitized) "error:" then
      handleAgentError st1 agentId agentName sanitized fallbackOk
    else
      { st1 with
        awaitingHumanInput := false,
        events := st1.events ++ [.agentMsg agentId sanitized] }

/-- `handleHumanInput`: empty input while not awaiting is ignored; nonempty
trimmed input clears the flag; the message is recorded. -/
def handleHumanInput (st : OrchState) (input : String) : OrchState :=
  let trimmed := strTrim input
  if trimmed.length = 0 && !st.awaitingHumanInput then st
  else
    let st1 := if trimmed.length > 0 then { st with awaitingHumanInput := false }
               else st
    { st1 with events := st1.events ++ [.humanMsg input] }

/-! ## Predicates used in theorem statements -/

/-- The task at `tid` exists and has left `pending`. -/
def EntryNonPending (tasks : List (String × Task)) (tid : String) : Prop :=
  ∃ u, mapGet tasks tid = some u ∧ u.status ≠ TaskStatus.pending

/-- The scheduler queue is sorted by timestamp (an invariant of `enqueue`). -/
def QueueSorted (q : List ScheduledTask) : Prop :=
  List.Pairwise (fun a b => a.timestamp ≤ b.timestamp) q

/-- The status transition performed by `appendEventTopic`, as a function of
the current status and the event kind only (used to state and prove that
status derivation ignores every other event field). -/
def statusStep (s : TopicStatus) : EvKind → TopicStatus
  | .message lvl =>
    let s1 := if s = .pending then TopicStatus.in_progress else s
    if lvl = some .junior then .review else s1
  | .statusEv s' => s'
  | _ => s

/-! ## Concrete sample data used by the witness and counterexample theorems -/

def c1wState : TMState :=
  (startTask (createTask {} "t1" 0 "d" "a" "lead" []).2 "t1" 1).2

def c2s2 : TMState :=
  (createTask (createTask {} "t1" 0 "first" "alice" "lead" []).2
    "t2" 1 "second" "bob" "lead" ["t1"]).2

def c1wOps : List TMOp := [TMOp.complete "t1" 2 "done"]

def c1wTask : Task :=
  { id := "t1", description := "d", assignee := "a", assignedBy := "lead",
    status := .in_progress, createdAt := 0, startedAt := some 1 }

def c1wFinal : Task :=
  { c1wTask with
    status := .completed, completedAt := some 2, result := some "done" }

def c3wLock : ResourceLock :=
  { resourceId := "file:workspace/a.ts", agentId := "agent-a", acquiredAt := 0 }

def c3wState : PEState := { resourceLocks := [("file:workspace/a.ts", c3wLock)] }

def c3wArgs : ToolArgs := { path := some "workspace/a.ts" }

def c4wState : OrchState := { lastAgentMessages := [("a", "x")] }

def c5Lead : TeamMemberConfig :=
  { id := "lead", name := "Lena", role := "Team Lead", level := some .principal }

def c5Senior : TeamMemberConfig :=
  { id := "senior", name := "Sam", role := "Developer", level := some .senior }

def c5Junior : TeamMemberConfig :=
  { id := "junior", name := "Jude", role := "Developer", level := some .junior }

def c5St : SchedulerState := initScheduler [c5Lead, c5Senior, c5Junior]

def c6wState : TMState := (createTask {} "t1" 0 "d" "a" "lead" []).2

def c7Members : List TeamMemberConfig :=
  [{ id := "b", name := "Bea", role := "Developer" },
   { id := "a", name := "Ada", role := "Developer" }]

def c7St : SchedulerState := initScheduler c7Members

def c7Collider : ScheduledTask :=
  { agentId := "b", topicId := "general", reason := .followup, timestamp := 100 }

def c8e1 : ConversationEvent :=
  { topicId := "t", kind := .humanInput, body := "one", timestamp := 1 }

def c8e2 : ConversationEvent :=
  { topicId := "t", kind := .humanInput, body := "two", timestamp := 2 }

def c8e3 : ConversationEvent :=
  { topicId := "t", kind := .humanInput, body := "three", timestamp := 3 }

def c8wState : SMState :=
  appendEvent (appendEvent (appendEvent {} c8e1) c8e2) c8e3

def c8Topic : TopicState :=
  { id := "t", title := "t", events := [c8e1, c8e2, c8e3], status := .pending }

def c9Evs1 : List ConversationEvent :=
  [{ topicId := "t", kind := .message (some .junior), body := "hello", timestamp := 1 }]

def c9Evs2 : List ConversationEvent :=
  [{ topicId := "u", kind := .message (some .junior), body := "different body", timestamp := 99 }]

def c10wArgs : ToolArgs := { path := some "x.ts" }

def c10wState : PEState := {}

/-! # Theorems -/

/-! ## Association-list map lemmas -/

theorem mapGet_mapSet_self {α : Type} (m : List (String × α)) (k : String) (v : α) :
    mapGet (mapSet m k v) k = some v := by
  induction m with
  | nil => simp [mapGet, mapSet]
  | cons hd tl ih =>
    obtain ⟨k', v'⟩ := hd
    by_cases h : k' = k
    · simp [mapGet, mapSet, h]
    · simp [mapGet, mapSet, h, ih]

theorem mapGet_mapSet_ne {α : Type} (m : List (String × α)) (k k' : String) (v : α)
    (h : k' ≠ k) : mapGet (mapSet m k v) k' = mapGet m k' := by
  have h' : k ≠ k' := Ne.symm h
  induction m with
  | nil => simp [mapGet, mapSet, h']
  | cons hd tl ih =>
    obtain ⟨k0, v0⟩ := hd
    by_cases h0 : k0 = k
    · subst h0
      simp [mapGet, mapSet, h']
    · simp [mapGet, mapSet, h0, ih]

theorem setDelete_mem (s : List String) (x y : String) :
    y ∈ setDelete s x ↔ y ∈ s ∧ y ≠ x := by
  simp [setDelete]

/-! ## TaskManager lemmas -/

theorem completedVersion_status (now : Nat) (result : Option String) (t : Task) :
    (completedVersion now result t).status = .completed := by
  unfold completedVersion
  split <;> split <;> rfl

theorem completedVersion_result (now : Nat) (result : Option String) (t : Task)
    (h : optStrTruthy result = true) :
    (completedVersion now result t).result = result := by
  unfold completedVersion
  rw [if_pos h]

theorem completedVersion_startedAt (now : Nat) (result : Option String) (t : Task)
    (h : t.startedAt = none) :
    (completedVersion now result t).startedAt = some now := by
  have h1 : optNatTruthy t.startedAt = false := by rw [h]; rfl
  unfold completedVersion
  rw [h1, if_neg Bool.false_ne_true]
  split <;> rfl

theorem completedVersion_completedAt (now : Nat) (result : Option String) (t : Task) :
    (completedVersion now result t).completedAt = some now := by
  unfold completedVersion
  split <;> split <;> rfl

theorem completeAgentStep_snd (now : Nat) (result : Option String)
    (acc : List (String × Task) × List String) (taskId : String) :
    (completeAgentStep now result acc taskId).2 = setDelete acc.2 taskId := by
  cases hmg : mapGet acc.1 taskId with
  | none => simp [completeAgentStep, hmg]
  | some task =>
    cases hst : task.status <;> simp [completeAgentStep, hmg, hst]

theorem completeAgentStep_nonpending (now : Nat) (result : Option String)
    (acc : List (String × Task) × List String) (h : String) (tid : String)
    (hp : EntryNonPending acc.1 tid) :
    EntryNonPending (completeAgentStep now result acc h).1 tid := by
  obtain ⟨u, hu, hnp⟩ := hp
  have hset : ∀ task : Task, EntryNonPending (mapSet acc.1 h (completedVersion now result task)) tid := by
    intro task
    by_cases he : h = tid
    · subst he
      exact ⟨completedVersion now result task, mapGet_mapSet_self _ _ _,
        by rw [completedVersion_status]; intro hx; exact TaskStatus.noConfusion hx⟩
    · exact ⟨u, by rw [mapGet_mapSet_ne _ _ _ _ (Ne.symm he)]; exact hu, hnp⟩
  cases hmg : mapGet acc.1 h with
  | none =>
    simp only [completeAgentStep, hmg]
    exact ⟨u, hu, hnp⟩
  | some task =>
    cases hst : task.status with
    | completed =>
      simp only [completeAgentStep, hmg, hst]
      exact ⟨u, hu, hnp⟩
    | pending =>
      simp only [completeAgentStep, hmg, hst]
      exact hset task
    | in_progress =>
      simp only [completeAgentStep, hmg, hst]
      exact hset task
    | failed =>
      simp only [completeAgentStep, hmg, hst]
      exact hset task

theorem foldCA_nonpending (now : Nat) (result : Option String) (ids : List String)
    (tid : String) :
    ∀ acc : List (String × Task) × List String, EntryNonPending acc.1 tid →
      EntryNonPending (ids.foldl (completeAgentStep now result) acc).1 tid := by
  induction ids with
  | nil => intro acc hp; exact hp
  | cons h rest ih =>
    intro acc hp
    exact ih _ (completeAgentStep_nonpending now result acc h tid hp)

theorem applyTMOp_nonpending (st : TMState) (op : TMOp)
    (hf : opFresh st op = true) (tid : String)
    (hp : EntryNonPending st.tasks tid) :
    EntryNonPending (applyTMOp st op).tasks tid := by
  obtain ⟨u, hu, hnp⟩ := hp
  cases op with
  | create id now d a ab deps =>
    have hid : id ≠ tid := by
      intro he
      subst he
      simp only [opFresh, Option.isNone] at hf
      rw [hu] at hf
      exact Bool.noConfusion hf
    refine ⟨u, ?_, hnp⟩
    simp only [applyTMOp, createTask]
    rw [mapGet_mapSet_ne _ _ _ _ (Ne.symm hid)]
    exact hu
  | start id now =>
    cases hmg : mapGet st.tasks id with
    | none =>
      simp only [applyTMOp, startTask, hmg]
      exact ⟨u, hu, hnp⟩
    | some task =>
      simp only [applyTMOp, startTask, hmg]
      split
      · exact ⟨u, hu, hnp⟩
      · by_cases he : id = tid
        · subst he
          exact ⟨_, mapGet_mapSet_self _ _ _, by simp⟩
        · exact ⟨u, by rw [mapGet_mapSet_ne _ _ _ _ (Ne.symm he)]; exact hu, hnp⟩
  | complete id now r =>
    cases hmg : mapGet st.tasks id with
    | none =>
      simp only [applyTMOp, completeTask, hmg]
      exact ⟨u, hu, hnp⟩
    | some task =>
      cases hst : task.status with
      | in_progress =>
        simp only [applyTMOp, completeTask, hmg, hst]
        by_cases he : id = tid
        · subst he
          exact ⟨_, mapGet_mapSet_self _ _ _, by simp⟩
        · exact ⟨u, by rw [mapGet_mapSet_ne _ _ _ _ (Ne.symm he)]; exact hu, hnp⟩
      | pending =>
        simp only [applyTMOp, completeTask, hmg, hst]
        exact ⟨u, hu, hnp⟩
      | completed =>
        simp only [applyTMOp, completeTask, hmg, hst]
        exact ⟨u, hu, hnp⟩
      | failed =>
        simp only [applyTMOp, completeTask, hmg, hst]
        exact ⟨u, hu, hnp⟩
  | completeForAgent a now r =>
    cases hmg : mapGet st.agentTasks a with
    | none =>
      simp only [applyTMOp, completeTasksForAgent, hmg]
      exact ⟨u, hu, hnp⟩
    | some taskIds =>
      simp only [applyTMOp, completeTasksForAgent, hmg]
      split
      · exact ⟨u, hu, hnp⟩
      · exact foldCA_nonpending now r taskIds tid (st.tasks, taskIds) ⟨u, hu, hnp⟩
  | fail id now e =>
    cases hmg : mapGet st.tasks id with
    | none =>
      simp only [applyTMOp, failTask, hmg]
      exact ⟨u, hu, hnp⟩
    | some task =>
      simp only [applyTMOp, failTask, hmg]
      by_cases he : id = tid
      · subst he
        exact ⟨_, mapGet_mapSet_self _ _ _, by simp⟩
      · exact ⟨u, by rw [mapGet_mapSet_ne _ _ _ _ (Ne.symm he)]; exact hu, hnp⟩

theorem runTM_nonpending (ops : List TMOp) :
    ∀ st : TMState, freshCreates st ops = true → ∀ tid : String,
      EntryNonPending st.tasks tid → EntryNonPending (runTM st ops).tasks tid := by
  induction ops with
  | nil => intro st _ tid hp; exact hp
  | cons op rest ih =>
    intro st hf tid hp
    rw [freshCreates, Bool.and_eq_true] at hf
    exact ih _ hf.2 tid (applyTMOp_nonpending st op hf.1 tid hp)

/-- C1: the claim fails on the code.  `startTask` checks only the
dependencies, never the current status, so a `completed` task with met
dependencies is moved back to `in_progress`: create a task, start it,
complete it, and start it again — the observed status sequence is
`pending, in_progress, completed, in_progress`, which is not a prefix of
`pending, in_progress, completed`. -/
theorem c1_completed_task_restarts :
    (getTask (completeTask c1wState "t1" 2 "done").2 "t1").map Task.status
        = some TaskStatus.completed
  ∧ (startTask (completeTask c1wState "t1" 2 "done").2 "t1" 3).1 = true
  ∧ (getTask (startTask (completeTask c1wState "t1" 2 "done").2 "t1" 3).2 "t1").map
        Task.status = some TaskStatus.in_progress := by
  decide

/-- C1 (amended): in every sequence of TaskManager operations whose
`createTask` calls use fresh ids, a task that has left `pending` never
returns to `pending`; however `completed` and `failed` are not absorbing:
`startTask` moves any task with met dependencies (terminal or not) back to
`in_progress`, `failTask` fails any existing task, and
`completeTasksForAgent` completes `failed` tasks. -/
theorem c1_no_return_to_pending (st : TMState) (ops : List TMOp) (tid : String)
    (hfresh : freshCreates st ops = true) (t : Task)
    (ht : mapGet st.tasks tid = some t) (hnp : t.status ≠ TaskStatus.pending)
    (t' : Task) (ht' : mapGet (runTM st ops).tasks tid = some t') :
    t'.status ≠ TaskStatus.pending := by
  obtain ⟨u, hu, hup⟩ := runTM_nonpending ops st hfresh tid ⟨t, ht, hnp⟩
  rw [ht'] at hu
  injection hu with he
  rw [he]
  exact hup

theorem c1_no_return_to_pending_witness : c1wFinal.status ≠ TaskStatus.pending :=
  c1_no_return_to_pending c1wState c1wOps "t1" (by decide) c1wTask (by decide)
    (by decide) c1wFinal (by decide)

/-- C2: the claim fails on the code.  In the claimed scenario T1 is never
started, and `completeTask` succeeds only from `in_progress`, so
`completeTask(T1, "done")` returns `false` (and the final `startTask(T2)`
returns `false` as well). -/
theorem c2_completeTask_pending_returns_false :
    (startTask c2s2 "t2" 2).1 = false
  ∧ (completeTask (startTask c2s2 "t2" 2).2 "t1" 3 "done").1 = false
  ∧ (startTask (completeTask (startTask c2s2 "t2" 2).2 "t1" 3 "done").2 "t2" 4).1
      = false := by
  decide

/-- C2 (amended): the scenario holds once T1 is started before being
completed: `startTask(T2)` → false, `startTask(T1)` → true,
`completeTask(T1, "done")` → true, then `startTask(T2)` → true. -/
theorem c2_dependency_gating_scenario :
    (startTask c2s2 "t2" 2).1 = false
  ∧ (startTask (startTask c2s2 "t2" 2).2 "t1" 3).1 = true
  ∧ (completeTask (startTask (startTask c2s2 "t2" 2).2 "t1" 3).2 "t1" 4 "done").1
      = true
  ∧ (startTask
      (completeTask (startTask (startTask c2s2 "t2" 2).2 "t1" 3).2 "t1" 4 "done").2
      "t2" 5).1 = true := by
  decide

/-! ## completeTasksForAgent lemmas (C6) -/

theorem completeAgentStep_other (now : Nat) (result : Option String)
    (acc : List (String × Task) × List String) (h tid : String) (hne : h ≠ tid) :
    mapGet (completeAgentStep now result acc h).1 tid = mapGet acc.1 tid := by
  cases hmg : mapGet acc.1 h with
  | none => simp only [completeAgentStep, hmg]
  | some task =>
    cases hst : task.status with
    | completed => simp only [completeAgentStep, hmg, hst]
    | pending =>
      simp only [completeAgentStep, hmg, hst]
      exact mapGet_mapSet_ne _ _ _ _ (Ne.symm hne)
    | in_progress =>
      simp only [completeAgentStep, hmg, hst]
      exact mapGet_mapSet_ne _ _ _ _ (Ne.symm hne)
    | failed =>
      simp only [completeAgentStep, hmg, hst]
      exact mapGet_mapSet_ne _ _ _ _ (Ne.symm hne)

theorem completeAgentStep_self (now : Nat) (result : Option String)
    (acc : List (String × Task) × List String) (h : String) (t : Task)
    (hu : mapGet acc.1 h = some t) (hnc : t.status ≠ TaskStatus.completed) :
    mapGet (completeAgentStep now result acc h).1 h
      = some (completedVersion now result t) := by
  cases hst : t.status with
  | completed => exact absurd hst hnc
  | pending =>
    simp only [completeAgentStep, hu, hst]
    exact mapGet_mapSet_self _ _ _
  | in_progress =>
    simp only [completeAgentStep, hu, hst]
    exact mapGet_mapSet_self _ _ _
  | failed =>
    simp only [completeAgentStep, hu, hst]
    exact mapGet_mapSet_self _ _ _

theorem completeAgentStep_preserve_completed (now : Nat) (result : Option String)
    (acc : List (String × Task) × List String) (h tid : String) (u : Task)
    (hu : mapGet acc.1 tid = some u) (hc : u.status = TaskStatus.completed) :
    mapGet (completeAgentStep now result acc h).1 tid = some u := by
  by_cases he : h = tid
  · subst he
    simp only [completeAgentStep, hu, hc]
  · rw [completeAgentStep_other now result acc h tid he]
    exact hu

theorem foldCA_preserve_completed (now : Nat) (result : Option String)
    (ids : List String) (tid : String) :
    ∀ acc : List (String × Task) × List String, ∀ u : Task,
      mapGet acc.1 tid = some u → u.status = TaskStatus.completed →
      mapGet (ids.foldl (completeAgentStep now result) acc).1 tid = some u := by
  induction ids with
  | nil => intro acc u hu _; exact hu
  | cons h rest ih =>
    intro acc u hu hc
    exact ih _ u (completeAgentStep_preserve_completed now result acc h tid u hu hc) hc

theorem foldCA_completes (now : Nat) (result : Option String) (ids : List String)
    (tid : String) :
    ∀ acc : List (String × Task) × List String, ∀ t : Task,
      tid ∈ ids → mapGet acc.1 tid = some t → t.status ≠ TaskStatus.completed →
      mapGet (ids.foldl (completeAgentStep now result) acc).1 tid
        = some (completedVersion now result t) := by
  induction ids with
  | nil => intro acc t hmem; exact absurd hmem (List.not_mem_nil tid)
  | cons h rest ih =>
    intro acc t hmem hu hnc
    by_cases he : h = tid
    · subst he
      have hstep := completeAgentStep_self now result acc h t hu hnc
      exact foldCA_preserve_completed now result rest h _ _ hstep
        (completedVersion_status now result t)
    · have hmem' : tid ∈ rest := by
        rcases List.mem_cons.mp hmem with h1 | h1
        · exact absurd h1.symm he
        · exact h1
      have hu' : mapGet (completeAgentStep now result acc h).1 tid = some t := by
        rw [completeAgentStep_other now result acc h tid he]
        exact hu
      exact ih _ t hmem' hu' hnc

theorem foldCA_remaining (now : Nat) (result : Option String) (ids : List String) :
    ∀ acc : List (String × Task) × List String, ∀ x : String,
      x ∈ (ids.foldl (completeAgentStep now result) acc).2 → x ∈ acc.2 ∧ x ∉ ids := by
  induction ids with
  | nil => intro acc x hx; exact ⟨hx, List.not_mem_nil x⟩
  | cons h rest ih =>
    intro acc x hx
    obtain ⟨hx2, hnr⟩ := ih _ x hx
    rw [completeAgentStep_snd, setDelete_mem] at hx2
    refine ⟨hx2.1, ?_⟩
    simp only [List.mem_cons, not_or]
    exact ⟨hx2.2, hnr⟩

theorem foldCA_remaining_nil (now : Nat) (result : Option String) (ids : List String)
    (tasks : List (String × Task)) :
    (ids.foldl (completeAgentStep now result) (tasks, ids)).2 = [] := by
  rw [List.eq_nil_iff_forall_not_mem]
  intro x hx
  obtain ⟨h1, h2⟩ := foldCA_remaining now result ids (tasks, ids) x hx
  exact h2 h1

/-- C6: after `completeTasksForAgent(a, result)` with a truthy result,
every task owned by `a` that was neither `completed` nor `failed` is
`completed` with the shared result recorded and `startedAt` stamped when it
was absent, and `a`'s active set is empty: `getActiveTasksForAgent`
returns `[]` and `hasActiveTask` returns `false`. -/
theorem c6_completeTasksForAgent_correct (st : TMState) (agentId : String)
    (now : Nat) (r : String) (hr : r ≠ "") :
    (∀ ids, mapGet st.agentTasks agentId = some ids →
      ∀ tid ∈ ids, ∀ t, mapGet st.tasks tid = some t →
        t.status ≠ TaskStatus.completed → t.status ≠ TaskStatus.failed →
        ∃ t', mapGet (completeTasksForAgent st agentId now (some r)).tasks tid = some t'
          ∧ t'.status = TaskStatus.completed
          ∧ t'.result = some r
          ∧ (t.startedAt = none → t'.startedAt = some now)
          ∧ t'.completedAt = some now)
  ∧ getActiveTasksForAgent (completeTasksForAgent st agentId now (some r)) agentId = []
  ∧ hasActiveTask (completeTasksForAgent st agentId now (some r)) agentId = false := by
  have htruthy : optStrTruthy (some r) = true := by
    simp [optStrTruthy, hr]
  cases hmg : mapGet st.agentTasks agentId with
  | none =>
    have hcta : completeTasksForAgent st agentId now (some r) = st := by
      simp only [completeTasksForAgent, hmg]
    have hact : getActiveTasksForAgent st agentId = [] := by
      simp only [getActiveTasksForAgent, hmg]
    refine ⟨?_, ?_, ?_⟩
    · intro ids hids
      exact absurd hids (by simp)
    · rw [hcta]; exact hact
    · rw [hcta]; simp [hasActiveTask, hact]
  | some ids =>
    by_cases hlen : ids.length = 0
    · have hnil : ids = [] := List.length_eq_zero.mp hlen
      subst hnil
      have hcta : completeTasksForAgent st agentId now (some r) = st := by
        simp only [completeTasksForAgent, hmg]
        rfl
      have hact : getActiveTasksForAgent st agentId = [] := by
        simp only [getActiveTasksForAgent, hmg, List.filterMap_nil]
      refine ⟨?_, ?_, ?_⟩
      · intro ids0 hids0
        injection hids0 with he
        subst he
        intro tid htid
        exact absurd htid (List.not_mem_nil tid)
      · rw [hcta]; exact hact
      · rw [hcta]; simp [hasActiveTask, hact]
    · have hcta : completeTasksForAgent st agentId now (some r)
          = { tasks := (ids.foldl (completeAgentStep now (some r)) (st.tasks, ids)).1,
              agentTasks := mapSet st.agentTasks agentId
                (ids.foldl (completeAgentStep now (some r)) (st.tasks, ids)).2 } := by
        simp only [completeTasksForAgent, hmg]
        rw [if_neg hlen]
      have hrem := foldCA_remaining_nil now (some r) ids st.tasks
      have hact :
          getActiveTasksForAgent (completeTasksForAgent st agentId now (some r)) agentId
            = [] := by
        rw [hcta]
        simp only [getActiveTasksForAgent, mapGet_mapSet_self, hrem,
          List.filterMap_nil]
      refine ⟨?_, hact, by simp [hasActiveTask, hact]⟩
      intro ids0 hids0
      injection hids0 with he
      subst he
      intro tid htid t ht hnc _
      refine ⟨completedVersion now (some r) t, ?_, completedVersion_status now (some r) t,
        ?_, completedVersion_startedAt now (some r) t, completedVersion_completedAt now (some r) t⟩
      · rw [hcta]
        exact foldCA_completes now (some r) ids tid (st.tasks, ids) t htid ht hnc
      · rw [completedVersion_result now (some r) t htruthy]

theorem c6_completeTasksForAgent_correct_witness :
    getActiveTasksForAgent (completeTasksForAgent c6wState "a" 5 (some "done")) "a" = []
  ∧ hasActiveTask (completeTasksForAgent c6wState "a" 5 (some "done")) "a" = false :=
  ⟨(c6_completeTasksForAgent_correct c6wState "a" 5 "done" (by decide)).2.1,
   (c6_completeTasksForAgent_correct c6wState "a" 5 "done" (by decide)).2.2⟩

/-! ## ParallelExecutor lemmas (C3, C10) -/

theorem extractResources_shape (toolName : String) (args : ToolArgs) :
    extractResourcesFromTool toolName args = [] ∨
    (toolName = "file_system" ∧ ∃ p, args.path = some p ∧ p ≠ "" ∧
      extractResourcesFromTool toolName args = ["file:" ++ p]) := by
  by_cases ht : toolName = "file_system"
  · cases hp : args.path with
    | none => left; simp [extractResourcesFromTool, optStrTruthy, ht, hp]
    | some p =>
      by_cases hp0 : p = ""
      · left; simp [extractResourcesFromTool, optStrTruthy, ht, hp, hp0]
      · right
        exact ⟨ht, p, rfl,  hp0,
          by simp [extractResourcesFromTool, optStrTruthy, ht, hp, hp0]⟩
  · left; simp [extractResourcesFromTool, ht]

/-- C3: `acquireToolLocks` is all-or-nothing.  If some derived resource key
is held by a different owner (equivalently, `canExecuteTool` is false),
the call returns `false` and the whole executor state — in particular the
lock map — is exactly as before; otherwise it returns `true` and the agent
owns every derived key afterwards. -/
theorem c3_acquireToolLocks_all_or_nothing (st : PEState) (agentId toolName : String)
    (args : ToolArgs) (now : Nat) :
    (canExecuteTool st agentId toolName args = false →
      acquireToolLocks st agentId toolName args now = (false, st))
  ∧ (canExecuteTool st agentId toolName args = true →
      (acquireToolLocks st agentId toolName args now).1 = true
      ∧ ∀ r ∈ extractResourcesFromTool toolName args,
          ∃ lock, mapGet (acquireToolLocks st agentId toolName args now).2.resourceLocks r
              = some lock ∧ lock.agentId = agentId) := by
  rcases extractResources_shape toolName args with hsh | ⟨ht, p, hp, hp0, hsh⟩
  · constructor
    · intro hfalse
      rw [canExecuteTool, hsh] at hfalse
      simp at hfalse
    · intro _
      constructor
      · rw [acquireToolLocks, hsh]
        rfl
      · rw [hsh]
        intro r hr
        exact absurd hr (List.not_mem_nil r)
  · cases hmg : mapGet st.resourceLocks ("file:" ++ p) with
    | none =>
      have hcan : canExecuteTool st agentId toolName args = true := by
        rw [canExecuteTool, hsh]
        simp [hmg]
      have hacq : acquireToolLocks st agentId toolName args now
          = (true, { st with
              resourceLocks := mapSet st.resourceLocks ("file:" ++ p)
                { resourceId := "file:" ++ p, agentId := agentId, acquiredAt := now } }) := by
        rw [acquireToolLocks, hsh]
        simp [acquireLocksGo, acquireLock, hmg]
      constructor
      · intro hfalse
        rw [hcan] at hfalse
        exact absurd hfalse (by simp)
      · intro _
        rw [hacq, hsh]
        refine ⟨rfl, ?_⟩
        intro r hr
        obtain rfl := List.mem_singleton.mp hr
        exact ⟨_, mapGet_mapSet_self _ _ _, rfl⟩
    | some lock =>
      by_cases hown : lock.agentId = agentId
      · have hcan : canExecuteTool st agentId toolName args = true := by
          rw [canExecuteTool, hsh]
          simp [hmg, hown]
        have hacq : acquireToolLocks st agentId toolName args now
            = (true, { st with
                resourceLocks := mapSet st.resourceLocks ("file:" ++ p)
                  { resourceId := "file:" ++ p, agentId := agentId, acquiredAt := now } }) := by
          rw [acquireToolLocks, hsh]
          simp [acquireLocksGo, acquireLock, hmg, hown]
        constructor
        · intro hfalse
          rw [hcan] at hfalse
          exact absurd hfalse (by simp)
        · intro _
          rw [hacq, hsh]
          refine ⟨rfl, ?_⟩
          intro r hr
          obtain rfl := List.mem_singleton.mp hr
          exact ⟨_, mapGet_mapSet_self _ _ _, rfl⟩
      · have hcan : canExecuteTool st agentId toolName args = false := by
          rw [canExecuteTool, hsh]
          simp [hmg, hown]
        have hacq : acquireToolLocks st agentId toolName args now = (false, st) := by
          rw [acquireToolLocks, hsh]
          simp [acquireLocksGo, acquireLock, hmg, hown, releaseToolLocks, hsh,
            releaseLock]
        constructor
        · intro _
          exact hacq
        · intro htrue
          rw [hcan] at htrue
          exact absurd htrue (by simp)

theorem c3_acquireToolLocks_all_or_nothing_witness :
    acquireToolLocks c3wState "agent-b" "file_system" c3wArgs 5 = (false, c3wState)
  ∧ (acquireToolLocks c3wState "agent-a" "file_system" c3wArgs 5).1 = true :=
  ⟨(c3_acquireToolLocks_all_or_nothing c3wState "agent-b" "file_system" c3wArgs 5).1
      (by decide),
   ((c3_acquireToolLocks_all_or_nothing c3wState "agent-a" "file_system" c3wArgs 5).2
      (by decide)).1⟩

/-- C10: `extractResourcesFromTool` yields at most one key — exactly
`file:<path>` for a `file_system` call with a truthy path and nothing
otherwise — so every non-`file_system` call passes `canExecuteTool` and
`acquireToolLocks` without touching the lock state. -/
theorem c10_extract_resources_single_key (toolName : String) (args : ToolArgs)
    (st : PEState) (agentId : String) (now : Nat) :
    (extractResourcesFromTool toolName args).length ≤ 1
  ∧ (∀ p, args.path = some p → p ≠ "" → toolName = "file_system" →
      extractResourcesFromTool toolName args = ["file:" ++ p])
  ∧ (toolName ≠ "file_system" → extractResourcesFromTool toolName args = [])
  ∧ (optStrTruthy args.path = false → extractResourcesFromTool toolName args = [])
  ∧ (toolName ≠ "file_system" →
      canExecuteTool st agentId toolName args = true
      ∧ acquireToolLocks st agentId toolName args now = (true, st)) := by
  refine ⟨?_, ?_, ?_, ?_, ?_⟩
  · rcases extractResources_shape toolName args with hsh | ⟨_, p, _, _, hsh⟩ <;>
      simp [hsh]
  · intro p hpath hp0 ht
    simp [extractResourcesFromTool, optStrTruthy, hpath, hp0, ht]
  · intro ht
    simp [extractResourcesFromTool, ht]
  · intro hfalsy
    simp [extractResourcesFromTool, hfalsy]
  · intro ht
    have hsh : extractResourcesFromTool toolName args = [] := by
      simp [extractResourcesFromTool, ht]
    constructor
    · rw [canExecuteTool, hsh]
      rfl
    · rw [acquireToolLocks, hsh]
      rfl

theorem c10_extract_resources_single_key_witness :
    extractResourcesFromTool "file_system" c10wArgs = ["file:x.ts"]
  ∧ acquireToolLocks c10wState "a" "terminal" c10wArgs 0 = (true, c10wState) :=
  ⟨by
    have h := (c10_extract_resources_single_key "file_system" c10wArgs c10wState "a" 0).2.1
      "x.ts" (by decide) (by decide) (by decide)
    exact h,
   ((c10_extract_resources_single_key "terminal" c10wArgs c10wState "a" 0).2.2.2.2
      (by decide)).2⟩

/-! ## Scheduler review-escalation lemmas (C5) -/

theorem findReviewerStep_some_origin (neededRank : Nat) (excludeId : String)
    (acc : Option TeamMemberConfig) (e : String × TeamMemberConfig)
    (c : TeamMemberConfig)
    (h : findReviewerStep neededRank excludeId acc e = some c) :
    acc = some c ∨ (c = e.2 ∧ qualifiesAsReviewer neededRank excludeId e.2) := by
  cases hlvl : e.2.level with
  | none =>
    simp only [findReviewerStep, hlvl] at h
    exact Or.inl h
  | some lvl =>
    simp only [findReviewerStep, hlvl] at h
    by_cases hid : e.2.id = excludeId
    · rw [if_pos hid] at h
      exact Or.inl h
    · rw [if_neg hid] at h
      by_cases hrk : neededRank < levelRank lvl
      · rw [if_pos hrk] at h
        cases hacc : acc with
        | none =>
          rw [hacc] at h
          injection h with he
          exact Or.inr ⟨he.symm, hid, lvl, hlvl, hrk⟩
        | some c0 =>
          rw [hacc] at h
          have h2 : (if levelRank lvl < memberRank c0 then some e.2 else some c0)
              = some c := h
          by_cases hlt : levelRank lvl < memberRank c0
          · rw [if_pos hlt] at h2
            injection h2 with he
            exact Or.inr ⟨he.symm, hid, lvl, hlvl, hrk⟩
          · rw [if_neg hlt] at h2
            exact Or.inl h2
      · rw [if_neg hrk] at h
        exact Or.inl h

theorem findReviewerStep_qual (neededRank : Nat) (excludeId : String)
    (acc : Option TeamMemberConfig) (e : String × TeamMemberConfig)
    (hq : qualifiesAsReviewer neededRank excludeId e.2) :
    ∃ c, findReviewerStep neededRank excludeId acc e = some c
      ∧ memberRank c ≤ memberRank e.2 := by
  obtain ⟨hid, lvl, hlvl, hrk⟩ := hq
  have hrank : memberRank e.2 = levelRank lvl := by
    simp only [memberRank, hlvl]
  simp only [findReviewerStep, hlvl]
  rw [if_neg hid, if_pos hrk]
  cases acc with
  | none => exact ⟨e.2, rfl, le_refl _⟩
  | some c0 =>
    by_cases hlt : levelRank lvl < memberRank c0
    · refine ⟨e.2, ?_, le_refl _⟩
      show (if levelRank lvl < memberRank c0 then some e.2 else some c0) = some e.2
      rw [if_pos hlt]
    · refine ⟨c0, ?_, by rw [hrank]; exact Nat.le_of_not_lt hlt⟩
      show (if levelRank lvl < memberRank c0 then some e.2 else some c0) = some c0
      rw [if_neg hlt]

theorem findReviewerStep_acc_some (neededRank : Nat) (excludeId : String)
    (acc : Option TeamMemberConfig) (e : String × TeamMemberConfig)
    (c0 : TeamMemberConfig) (hacc : acc = some c0) :
    ∃ c, findReviewerStep neededRank excludeId acc e = some c
      ∧ memberRank c ≤ memberRank c0 := by
  subst hacc
  cases hlvl : e.2.level with
  | none =>
    simp only [findReviewerStep, hlvl]
    exact ⟨c0, rfl, le_refl _⟩
  | some lvl =>
    simp only [findReviewerStep, hlvl]
    by_cases hid : e.2.id = excludeId
    · rw [if_pos hid]
      exact ⟨c0, rfl, le_refl _⟩
    · rw [if_neg hid]
      by_cases hrk : neededRank < levelRank lvl
      · rw [if_pos hrk]
        by_cases hlt : levelRank lvl < memberRank c0
        · refine ⟨e.2, ?_, ?_⟩
          · show (if levelRank lvl < memberRank c0 then some e.2 else some c0)
              = some e.2
            rw [if_pos hlt]
          · have hrank : memberRank e.2 = levelRank lvl := by
              simp only [memberRank, hlvl]
            rw [hrank]
            exact Nat.le_of_lt hlt
        · refine ⟨c0, ?_, le_refl _⟩
          show (if levelRank lvl < memberRank c0 then some e.2 else some c0)
            = some c0
          rw [if_neg hlt]
      · rw [if_neg hrk]
        exact ⟨c0, rfl, le_refl _⟩

theorem findReviewerStep_none (neededRank : Nat) (excludeId : String)
    (acc : Option TeamMemberConfig) (e : String × TeamMemberConfig)
    (h : findReviewerStep neededRank excludeId acc e = none) :
    acc = none ∧ ¬ qualifiesAsReviewer neededRank excludeId e.2 := by
  constructor
  · rcases hacc : acc with _ | c0
    · rfl
    · obtain ⟨c, hc, _⟩ := findReviewerStep_acc_some neededRank excludeId acc e c0 hacc
      rw [hc] at h
      exact absurd h (by simp)
  · intro hq
    obtain ⟨c, hc, _⟩ := findReviewerStep_qual neededRank excludeId acc e hq
    rw [hc] at h
    exact absurd h (by simp)

theorem findReviewer_fold_spec (neededRank : Nat) (excludeId : String)
    (l : List (String × TeamMemberConfig)) :
    ∀ acc : Option TeamMemberConfig,
      (∀ c, acc = some c → qualifiesAsReviewer neededRank excludeId c) →
      (∀ c, l.foldl (findReviewerStep neededRank excludeId) acc = some c →
          qualifiesAsReviewer neededRank excludeId c
        ∧ (acc = some c ∨ ∃ e ∈ l, e.2 = c)
        ∧ (∀ c0, acc = some c0 → memberRank c ≤ memberRank c0)
        ∧ (∀ e ∈ l, qualifiesAsReviewer neededRank excludeId e.2 →
            memberRank c ≤ memberRank e.2))
      ∧ (l.foldl (findReviewerStep neededRank excludeId) acc = none →
          acc = none ∧ ∀ e ∈ l, ¬ qualifiesAsReviewer neededRank excludeId e.2) := by
  induction l with
  | nil =>
    intro acc hacc
    constructor
    · intro c hc
      refine ⟨hacc c hc, Or.inl hc, ?_, ?_⟩
      · intro c0 hc0
        rw [hc0] at hc
        injection hc with he
        rw [he]
      · intro e he
        exact absurd he (List.not_mem_nil e)
    · intro hnone
      exact ⟨hnone, fun e he => absurd he (List.not_mem_nil e)⟩
  | cons e rest ih =>
    intro acc hacc
    have hacc' : ∀ c, findReviewerStep neededRank excludeId acc e = some c →
        qualifiesAsReviewer neededRank excludeId c := by
      intro c hc
      rcases findReviewerStep_some_origin neededRank excludeId acc e c hc with h1 | ⟨he, hq⟩
      · exact hacc c h1
      · rw [he]
        exact hq
    obtain ⟨ihsome, ihnone⟩ := ih (findReviewerStep neededRank excludeId acc e) hacc'
    constructor
    · intro c hc
      obtain ⟨hq, horigin, hrkacc, hrkmem⟩ := ihsome c hc
      refine ⟨hq, ?_, ?_, ?_⟩
      · rcases horigin with h1 | ⟨e', he', hc'⟩
        · rcases findReviewerStep_some_origin neededRank excludeId acc e c h1 with h2 | ⟨he2, _⟩
          · exact Or.inl h2
          · exact Or.inr ⟨e, List.mem_cons_self e rest, he2.symm⟩
        · exact Or.inr ⟨e', List.mem_cons_of_mem e he', hc'⟩
      · intro c0 hc0
        obtain ⟨c1, hc1, hle1⟩ :=
          findReviewerStep_acc_some neededRank excludeId acc e c0 hc0
        exact le_trans (hrkacc c1 hc1) hle1
      · intro e' he' hq'
        rcases List.mem_cons.mp he' with h1 | h1
        · subst h1
          obtain ⟨c1, hc1, hle1⟩ :=
            findReviewerStep_qual neededRank excludeId acc e' hq'
          exact le_trans (hrkacc c1 hc1) hle1
        · exact hrkmem e' h1 hq'
    · intro hnone
      obtain ⟨hstep, hrest⟩ := ihnone hnone
      obtain ⟨haccnone, hne⟩ :=
        findReviewerStep_none neededRank excludeId acc e hstep
      refine ⟨haccnone, ?_⟩
      intro e' he'
      rcases List.mem_cons.mp he' with h1 | h1
      · rw [h1]
        exact hne
      · exact hrest e' h1

theorem findReviewer_some_spec (teamIndex : List (String × TeamMemberConfig))
    (authorLevel : AgentLevel) (excludeId : String) (r : TeamMemberConfig)
    (h : findReviewer teamIndex authorLevel excludeId = some r) :
    qualifiesAsReviewer (levelRank authorLevel) excludeId r
    ∧ (∃ e ∈ teamIndex, e.2 = r)
    ∧ ∀ e ∈ teamIndex, qualifiesAsReviewer (levelRank authorLevel) excludeId e.2 →
        memberRank r ≤ memberRank e.2 := by
  obtain ⟨hq, horigin, _, hmin⟩ :=
    ((findReviewer_fold_spec (levelRank authorLevel) excludeId teamIndex none
      (by intro c hc; exact absurd hc (by simp))).1) r h
  refine ⟨hq, ?_, hmin⟩
  rcases horigin with h1 | h1
  · exact absurd h1 (by simp)
  · exact h1

theorem findReviewer_none_spec (teamIndex : List (String × TeamMemberConfig))
    (authorLevel : AgentLevel) (excludeId : String)
    (h : findReviewer teamIndex authorLevel excludeId = none) :
    ∀ e ∈ teamIndex, ¬ qualifiesAsReviewer (levelRank authorLevel) excludeId e.2 :=
  (((findReviewer_fold_spec (levelRank authorLevel) excludeId teamIndex none
    (by intro c hc; exact absurd hc (by simp))).2) h).2

/-- C5: `scheduleReviewIfNeeded` is a no-op for an unknown or level-less
author; otherwise it enqueues exactly one review turn carrying the author
id, assigned to a roster member of minimal rank strictly above the author
(excluding the author); absent any such member it falls back to the team
lead unless the lead is the author, in which case (or with no lead at all)
nothing is enqueued. -/
theorem c5_scheduleReviewIfNeeded_correct (st : SchedulerState)
    (topicId authorId : String) (now : Nat) :
    (mapGet st.teamIndex authorId = none →
      scheduleReviewIfNeeded st topicId authorId now = st)
  ∧ (∀ a, mapGet st.teamIndex authorId = some a → a.level = none →
      scheduleReviewIfNeeded st topicId authorId now = st)
  ∧ (∀ a lvl, mapGet st.teamIndex authorId = some a → a.level = some lvl →
      (∀ r, findReviewer st.teamIndex lvl authorId = some r →
        scheduleReviewIfNeeded st topicId authorId now
            = enqueue st (reviewTurn r.id topicId authorId now)
        ∧ qualifiesAsReviewer (levelRank lvl) authorId r
        ∧ (∃ e ∈ st.teamIndex, e.2 = r)
        ∧ (∀ e ∈ st.teamIndex, qualifiesAsReviewer (levelRank lvl) authorId e.2 →
            memberRank r ≤ memberRank e.2))
      ∧ (findReviewer st.teamIndex lvl authorId = none →
        (∀ e ∈ st.teamIndex, ¬ qualifiesAsReviewer (levelRank lvl) authorId e.2)
        ∧ (∀ leadId, st.teamLeadId = some leadId → leadId ≠ authorId →
            scheduleReviewIfNeeded st topicId authorId now
              = enqueue st (reviewTurn leadId topicId authorId now))
        ∧ (∀ leadId, st.teamLeadId = some leadId → leadId = authorId →
            scheduleReviewIfNeeded st topicId authorId now = st)
        ∧ (st.teamLeadId = none →
            scheduleReviewIfNeeded st topicId authorId now = st))) := by
  refine ⟨?_, ?_, ?_⟩
  · intro hmg
    simp only [scheduleReviewIfNeeded, hmg]
  · intro a hmg hlvl
    simp only [scheduleReviewIfNeeded, hmg, hlvl]
  · intro a lvl hmg hlvl
    constructor
    · intro r hfr
      obtain ⟨hq, hmem, hmin⟩ :=
        findReviewer_some_spec st.teamIndex lvl authorId r hfr
      refine ⟨?_, hq, hmem, hmin⟩
      simp only [scheduleReviewIfNeeded, hmg, hlvl, hfr]
    · intro hfr
      refine ⟨findReviewer_none_spec st.teamIndex lvl authorId hfr, ?_, ?_, ?_⟩
      · intro leadId hlead hne
        simp only [scheduleReviewIfNeeded, hmg, hlvl, hfr, hlead, if_pos hne]
      · intro leadId hlead heq
        simp only [scheduleReviewIfNeeded, hmg, hlvl, hfr, hlead,
          if_neg (not_not_intro heq)]
      · intro hlead
        simp only [scheduleReviewIfNeeded, hmg, hlvl, hfr, hlead]

theorem c5_scheduleReviewIfNeeded_correct_witness :
    scheduleReviewIfNeeded c5St "general" "junior" 10
      = enqueue c5St (reviewTurn "senior" "general" "junior" 10) :=
  ((((c5_scheduleReviewIfNeeded_correct c5St "general" "junior" 10).2.2)
    c5Junior AgentLevel.junior (by decide) (by decide)).1 c5Senior (by decide)).1

/-! ## Scheduler queue-ordering lemmas (C7) -/

theorem drainList_eq (q : List ScheduledTask) : drainList q = q := by
  induction q with
  | nil => rfl
  | cons t rest ih => rw [drainList, ih]

theorem insertByTs_of_ge (t : ScheduledTask) (p : List ScheduledTask)
    (hall : ∀ y ∈ p, y.timestamp ≤ t.timestamp) :
    insertByTs t p = p ++ [t] := by
  induction p with
  | nil => rfl
  | cons h rest ih =>
    simp only [insertByTs]
    rw [if_pos (hall h (List.mem_cons_self h rest))]
    rw [ih (fun y hy => hall y (List.mem_cons_of_mem h hy))]
    rfl

theorem foldl_insert_sorted :
    ∀ (l p : List ScheduledTask), QueueSorted (p ++ l) →
      l.foldl (fun acc t => insertByTs t acc) p = p ++ l := by
  intro l
  induction l with
  | nil => intro p _; simp
  | cons x rest ih =>
    intro p hs
    have hcross := (List.pairwise_append.mp hs).2.2
    have hall : ∀ y ∈ p, y.timestamp ≤ x.timestamp := fun y hy =>
      hcross y hy x (List.mem_cons_self x rest)
    simp only [List.foldl_cons]
    rw [insertByTs_of_ge x p hall]
    have hs' : QueueSorted ((p ++ [x]) ++ rest) := by
      rw [List.append_assoc]
      exact hs
    rw [ih (p ++ [x]) hs']
    simp

theorem sortByTs_of_sorted (q : List ScheduledTask) (hq : QueueSorted q) :
    sortByTs q = q :=
  foldl_insert_sorted q [] (by simpa using hq)

theorem sortByTs_append_singleton (q : List ScheduledTask) (t : ScheduledTask) :
    sortByTs (q ++ [t]) = insertByTs t (sortByTs q) := by
  unfold sortByTs
  rw [List.foldl_append]
  rfl

theorem enqueue_queue_eq (st : SchedulerState) (t : ScheduledTask)
    (hq : QueueSorted st.queue) :
    (enqueue st t).queue = insertByTs t st.queue := by
  show sortByTs (st.queue ++ [t]) = insertByTs t st.queue
  rw [sortByTs_append_singleton, sortByTs_of_sorted st.queue hq]

theorem insertByTs_mem (t y : ScheduledTask) (q : List ScheduledTask)
    (h : y ∈ insertByTs t q) : y = t ∨ y ∈ q := by
  induction q with
  | nil => simpa [insertByTs] using h
  | cons hd rest ih =>
    by_cases hle : hd.timestamp ≤ t.timestamp
    · simp only [insertByTs, if_pos hle] at h
      rcases List.mem_cons.mp h with h1 | h1
      · exact Or.inr (h1 ▸ List.mem_cons_self hd rest)
      · rcases ih h1 with h2 | h2
        · exact Or.inl h2
        · exact Or.inr (List.mem_cons_of_mem hd h2)
    · simp only [insertByTs, if_neg hle] at h
      rcases List.mem_cons.mp h with h1 | h1
      · exact Or.inl h1
      · exact Or.inr h1

theorem insertByTs_sorted (t : ScheduledTask) (q : List ScheduledTask)
    (hq : QueueSorted q) : QueueSorted (insertByTs t q) := by
  induction q with
  | nil =>
    simp only [insertByTs]
    exact List.pairwise_singleton _ _
  | cons hd rest ih =>
    obtain ⟨hhd, hrest⟩ := List.pairwise_cons.mp hq
    by_cases hle : hd.timestamp ≤ t.timestamp
    · simp only [insertByTs, if_pos hle]
      refine List.Pairwise.cons ?_ (ih hrest)
      intro y hy
      rcases insertByTs_mem t y rest hy with h1 | h1
      · rw [h1]; exact hle
      · exact hhd y h1
    · simp only [insertByTs, if_neg hle]
      have hts : t.timestamp ≤ hd.timestamp := Nat.le_of_lt (Nat.lt_of_not_le hle)
      refine List.Pairwise.cons ?_ hq
      intro y hy
      rcases List.mem_cons.mp hy with h1 | h1
      · rw [h1]; exact hts
      · exact le_trans hts (hhd y h1)

theorem sublist_insertByTs (t : ScheduledTask) (q : List ScheduledTask) :
    List.Sublist q (insertByTs t q) := by
  induction q with
  | nil => simp [insertByTs]
  | cons hd rest ih =>
    by_cases hle : hd.timestamp ≤ t.timestamp
    · simp only [insertByTs, if_pos hle]
      exact List.Sublist.cons₂ hd ih
    · simp only [insertByTs, if_neg hle]
      exact List.Sublist.cons t (List.Sublist.refl _)

theorem insertByTs_sublist_append (t : ScheduledTask) :
    ∀ (q sub : List ScheduledTask), QueueSorted q → List.Sublist sub q →
      (∀ y ∈ sub, y.timestamp < t.timestamp) →
      List.Sublist (sub ++ [t]) (insertByTs t q) := by
  intro q
  induction q with
  | nil =>
    intro sub _ hsub _
    rw [List.sublist_nil.mp hsub]
    simp [insertByTs]
  | cons hd rest ih =>
    intro sub hq hsub hts
    obtain ⟨hhd, hrest⟩ := List.pairwise_cons.mp hq
    by_cases hle : hd.timestamp ≤ t.timestamp
    · simp only [insertByTs, if_pos hle]
      cases hsub with
      | cons a hsub' =>
        exact List.Sublist.cons hd (ih sub hrest hsub' hts)
      | cons₂ a hsub' =>
        exact List.Sublist.cons₂ hd
          (ih _ hrest hsub' (fun y hy => hts y (List.mem_cons_of_mem hd hy)))
    · simp only [insertByTs, if_neg hle]
      have hsubnil : sub = [] := by
        cases sub with
        | nil => rfl
        | cons s ss =>
          exfalso
          have hmem : s ∈ hd :: rest := hsub.subset (List.mem_cons_self s ss)
          have h1 : hd.timestamp ≤ s.timestamp := by
            rcases List.mem_cons.mp hmem with rfl | h2
            · exact le_refl _
            · exact hhd s h2
          have h2 : s.timestamp < t.timestamp := hts s (List.mem_cons_self s ss)
          have h3 : t.timestamp < hd.timestamp := Nat.lt_of_not_le hle
          omega
      subst hsubnil
      simp only [List.nil_append]
      exact List.Sublist.cons₂ t (List.nil_sublist _)

theorem enqueueAll_spec (later : List ScheduledTask) :
    ∀ (st : SchedulerState) (sub : List ScheduledTask),
      QueueSorted st.queue → List.Sublist sub st.queue →
      QueueSorted (enqueueAll st later).queue
      ∧ List.Sublist sub (enqueueAll st later).queue := by
  induction later with
  | nil => intro st sub hq hsub; exact ⟨hq, hsub⟩
  | cons t rest ih =>
    intro st sub hq hsub
    have hq1 : (enqueue st t).queue = insertByTs t st.queue := enqueue_queue_eq st t hq
    have hsorted : QueueSorted (enqueue st t).queue := by
      rw [hq1]
      exact insertByTs_sorted t st.queue hq
    have hsub1 : List.Sublist sub (enqueue st t).queue := by
      rw [hq1]
      exact hsub.trans (sublist_insertByTs t st.queue)
    exact ih (enqueue st t) sub hsorted hsub1

theorem mentionTurns_ts_lb (teamIndex : List (String × TeamMemberConfig))
    (topicId : String) (now : Nat) :
    ∀ (ids : List String) (idx : Nat) (y : ScheduledTask),
      y ∈ mentionTurns teamIndex topicId now ids idx → now + idx ≤ y.timestamp := by
  intro ids
  induction ids with
  | nil => intro idx y hy; simp [mentionTurns] at hy
  | cons m rest ih =>
    intro idx y hy
    by_cases hm : (mapGet teamIndex m).isSome
    · simp only [mentionTurns, if_pos hm] at hy
      rcases List.mem_cons.mp hy with h1 | h1
      · rw [h1]
      · exact le_trans (by omega) (ih (idx + 1) y h1)
    · simp only [mentionTurns, if_neg hm] at hy
      exact le_trans (by omega) (ih (idx + 1) y hy)

theorem mentionTurns_strict (teamIndex : List (String × TeamMemberConfig))
    (topicId : String) (now : Nat) :
    ∀ (ids : List String) (idx : Nat),
      List.Pairwise (fun a b => a.timestamp < b.timestamp)
        (mentionTurns teamIndex topicId now ids idx) := by
  intro ids
  induction ids with
  | nil => intro idx; simp [mentionTurns]
  | cons m rest ih =>
    intro idx
    by_cases hm : (mapGet teamIndex m).isSome
    · simp only [mentionTurns, if_pos hm]
      refine List.Pairwise.cons ?_ (ih (idx + 1))
      intro y hy
      have hlb := mentionTurns_ts_lb teamIndex topicId now rest (idx + 1) y hy
      show now + idx < y.timestamp
      omega
    · simp only [mentionTurns, if_neg hm]
      exact ih (idx + 1)

theorem mentionTurns_fields (teamIndex : List (String × TeamMemberConfig))
    (topicId : String) (now : Nat) :
    ∀ (ids : List String) (idx : Nat) (y : ScheduledTask),
      y ∈ mentionTurns teamIndex topicId now ids idx →
      y.reason = TurnReason.mention ∧ y.topicId = topicId := by
  intro ids
  induction ids with
  | nil => intro idx y hy; simp [mentionTurns] at hy
  | cons m rest ih =>
    intro idx y hy
    by_cases hm : (mapGet teamIndex m).isSome
    · simp only [mentionTurns, if_pos hm] at hy
      rcases List.mem_cons.mp hy with h1 | h1
      · rw [h1]
        exact ⟨rfl, rfl⟩
      · exact ih (idx + 1) y h1
    · simp only [mentionTurns, if_neg hm] at hy
      exact ih (idx + 1) y hy

theorem mentionTurns_agentIds (teamIndex : List (String × TeamMemberConfig))
    (topicId : String) (now : Nat) :
    ∀ (ids : List String) (idx : Nat),
      (∀ i ∈ ids, (mapGet teamIndex i).isSome = true) →
      (mentionTurns teamIndex topicId now ids idx).map (fun y => y.agentId) = ids := by
  intro ids
  induction ids with
  | nil => intro idx _; rfl
  | cons m rest ih =>
    intro idx hall
    have hm : (mapGet teamIndex m).isSome = true :=
      hall m (List.mem_cons_self m rest)
    simp only [mentionTurns, if_pos hm, List.map_cons]
    rw [ih (idx + 1) (fun i hi => hall i (List.mem_cons_of_mem m hi))]

theorem scheduleMentionsGo_spec (topicId : String) (now : Nat) :
    ∀ (ids : List String) (idx : Nat) (st : SchedulerState)
      (sub : List ScheduledTask),
      QueueSorted st.queue → List.Sublist sub st.queue →
      (∀ y ∈ sub, y.timestamp < now + idx) →
      QueueSorted (scheduleMentionsGo topicId now st ids idx).queue
      ∧ (scheduleMentionsGo topicId now st ids idx).teamIndex = st.teamIndex
      ∧ List.Sublist (sub ++ mentionTurns st.teamIndex topicId now ids idx)
          (scheduleMentionsGo topicId now st ids idx).queue := by
  intro ids
  induction ids with
  | nil =>
    intro idx st sub hq hsub _
    simp only [scheduleMentionsGo, mentionTurns, List.append_nil]
    exact ⟨hq, trivial, hsub⟩
  | cons m rest ih =>
    intro idx st sub hq hsub hts
    by_cases hm : (mapGet st.teamIndex m).isSome
    · set turn : ScheduledTask :=
        { agentId := m, topicId := topicId, reason := .mention,
          timestamp := now + idx } with hturn
      have hgo : scheduleMentionsGo topicId now st (m :: rest) idx
          = scheduleMentionsGo topicId now (enqueue st turn) rest (idx + 1) := by
        simp only [scheduleMentionsGo, if_pos hm, hturn]
      have hmt : mentionTurns st.teamIndex topicId now (m :: rest) idx
          = turn :: mentionTurns st.teamIndex topicId now rest (idx + 1) := by
        simp only [mentionTurns, if_pos hm, hturn]
      have hq1 : (enqueue st turn).queue = insertByTs turn st.queue :=
        enqueue_queue_eq st turn hq
      have hsorted : QueueSorted (enqueue st turn).queue := by
        rw [hq1]
        exact insertByTs_sorted turn st.queue hq
      have hsub1 : List.Sublist (sub ++ [turn]) (enqueue st turn).queue := by
        rw [hq1]
        exact insertByTs_sublist_append turn st.queue sub hq hsub hts
      have hts1 : ∀ y ∈ sub ++ [turn], y.timestamp < now + (idx + 1) := by
        intro y hy
        rcases List.mem_append.mp hy with h1 | h1
        · exact lt_trans (hts y h1) (by omega)
        · rw [List.mem_singleton.mp h1]
          show now + idx < now + (idx + 1)
          omega
      obtain ⟨g1, g2, g3⟩ := ih (idx + 1) (enqueue st turn) (sub ++ [turn])
        hsorted hsub1 hts1
      rw [hgo, hmt]
      refine ⟨g1, g2, ?_⟩
      have happ : sub ++ turn :: mentionTurns st.teamIndex topicId now rest (idx + 1)
          = (sub ++ [turn]) ++ mentionTurns st.teamIndex topicId now rest (idx + 1) := by
        simp
      rw [happ]
      exact g3
    · have hgo : scheduleMentionsGo topicId now st (m :: rest) idx
          = scheduleMentionsGo topicId now st rest (idx + 1) := by
        simp only [scheduleMentionsGo, if_neg hm]
      have hmt : mentionTurns st.teamIndex topicId now (m :: rest) idx
          = mentionTurns st.teamIndex topicId now rest (idx + 1) := by
        simp only [mentionTurns, if_neg hm]
      rw [hgo, hmt]
      exact ih (idx + 1) st sub hq hsub
        (fun y hy => lt_trans (hts y hy) (by omega))

/-- C7: `scheduleMentions` enqueues one turn per roster id with strictly
increasing timestamps, and those turns survive any batch of later enqueues
(colliding timestamps included) as a subsequence of the drained queue in
exactly the submitted order; with every id in the roster the enqueued agent
ids are exactly the submitted list, in order. -/
theorem c7_mentions_dequeue_in_order (st : SchedulerState) (topicId : String)
    (ids : List String) (now : Nat) (later : List ScheduledTask)
    (hq : QueueSorted st.queue) :
    List.Pairwise (fun a b => a.timestamp < b.timestamp)
      (mentionTurns st.teamIndex topicId now ids 0)
  ∧ (∀ y ∈ mentionTurns st.teamIndex topicId now ids 0,
      y.reason = TurnReason.mention ∧ y.topicId = topicId)
  ∧ ((∀ i ∈ ids, (mapGet st.teamIndex i).isSome = true) →
      (mentionTurns st.teamIndex topicId now ids 0).map (fun y => y.agentId) = ids)
  ∧ List.Sublist (mentionTurns st.teamIndex topicId now ids 0)
      (drain (enqueueAll (scheduleMentions st topicId ids now) later)) := by
  obtain ⟨g1, _, g3⟩ := scheduleMentionsGo_spec topicId now ids 0 st [] hq
    (List.nil_sublist _) (by intro y hy; exact absurd hy (List.not_mem_nil y))
  have hsub0 : List.Sublist (mentionTurns st.teamIndex topicId now ids 0)
      (scheduleMentions st topicId ids now).queue := by
    simpa using g3
  obtain ⟨_, hsub1⟩ := enqueueAll_spec later (scheduleMentions st topicId ids now)
    (mentionTurns st.teamIndex topicId now ids 0) g1 hsub0
  refine ⟨mentionTurns_strict st.teamIndex topicId now ids 0,
    fun y hy => mentionTurns_fields st.teamIndex topicId now ids 0 y hy,
    fun hall => mentionTurns_agentIds st.teamIndex topicId now ids 0 hall, ?_⟩
  show List.Sublist _ (drainList (enqueueAll (scheduleMentions st topicId ids now) later).queue)
  rw [drainList_eq]
  exact hsub1

theorem c7_mentions_dequeue_in_order_witness :
    List.Sublist (mentionTurns c7St.teamIndex "general" 100 ["b", "a"] 0)
      (drain (enqueueAll (scheduleMentions c7St "general" ["b", "a"] 100) [c7Collider]))
  ∧ (mentionTurns c7St.teamIndex "general" 100 ["b", "a"] 0).map (fun y => y.agentId)
      = ["b", "a"] :=
  ⟨(c7_mentions_dequeue_in_order c7St "general" ["b", "a"] 100 [c7Collider]
      (List.Pairwise.nil)).2.2.2,
   (c7_mentions_dequeue_in_order c7St "general" ["b", "a"] 100 [c7Collider]
      (List.Pairwise.nil)).2.2.1 (by decide)⟩

/-! ## SessionManager lemmas (C8, C9) -/

/-- C8: the claim fails on the code at `limit = 0`.  `slice(-limit)` is
`slice(-0) = slice(0)` there, so the whole event list is returned instead
of the last zero events. -/
theorem c8_limit_zero_returns_all :
    (getRecentEvents (appendEvent {} c8e1) "t" 0).1 = [c8e1]
  ∧ (getRecentEvents (appendEvent {} c8e1) "t" 0).1 ≠ [] := by
  decide

/-- C8 (amended): for every `limit ≥ 1`, `getRecentEvents` returns exactly
the last `limit` events of the topic in original order (the whole list when
the topic holds at most `limit` events) and leaves every stored history
unchanged; an unknown topic id is implicitly created empty.  For
`limit = 0` the code returns the whole list instead (see the
counterexample). -/
theorem c8_getRecentEvents_amended (st : SMState) (topicId : String) (limit : Nat)
    (hl : 1 ≤ limit) :
    (∀ t, mapGet st.topics topicId = some t →
        (getRecentEvents st topicId limit).1 = t.events.drop (t.events.length - limit)
      ∧ (t.events.length ≤ limit → (getRecentEvents st topicId limit).1 = t.events)
      ∧ (limit ≤ t.events.length → (getRecentEvents st topicId limit).1.length = limit)
      ∧ (getRecentEvents st topicId limit).2 = st)
  ∧ (mapGet st.topics topicId = none →
        (getRecentEvents st topicId limit).1 = []
      ∧ mapGet (getRecentEvents st topicId limit).2.topics topicId
          = some { id := topicId, title := topicId, summary := "", events := [],
                   status := TopicStatus.pending }
      ∧ ∀ tid t, mapGet st.topics tid = some t →
          mapGet (getRecentEvents st topicId limit).2.topics tid = some t) := by
  have hlz : limit ≠ 0 := by omega
  constructor
  · intro t ht
    have hget : getTopic st topicId = (t, st) := by
      simp only [getTopic, ht]
    have h1 : (getRecentEvents st topicId limit).1 = sliceLast t.events limit := by
      simp only [getRecentEvents, hget]
    have hslice : sliceLast t.events limit
        = t.events.drop (t.events.length - limit) := by
      simp only [sliceLast, if_neg hlz]
    refine ⟨h1.trans hslice, ?_, ?_, by simp only [getRecentEvents, hget]⟩
    · intro hle
      rw [h1, hslice]
      have hz : t.events.length - limit = 0 := by omega
      rw [hz, List.drop_zero]
    · intro hge
      rw [h1, hslice, List.length_drop]
      omega
  · intro hnone
    have hget : getTopic st topicId
        = ({ id := topicId, title := topicId, summary := "", events := [],
             status := TopicStatus.pending },
           { topics := mapSet st.topics topicId
               { id := topicId, title := topicId, summary := "", events := [],
                 status := TopicStatus.pending } }) := by
      simp only [getTopic, hnone, createTopic]
    refine ⟨?_, ?_, ?_⟩
    · simp only [getRecentEvents, hget, sliceLast, List.drop_nil]
      split <;> rfl
    · simp only [getRecentEvents, hget]
      exact mapGet_mapSet_self _ _ _
    · intro tid t ht
      have hne : tid ≠ topicId := by
        intro he
        rw [he, hnone] at ht
        exact Option.noConfusion ht
      simp only [getRecentEvents, hget]
      rw [mapGet_mapSet_ne _ _ _ _ hne]
      exact ht

theorem c8_getRecentEvents_amended_witness :
    (getRecentEvents c8wState "t" 2).1 = [c8e2, c8e3]
  ∧ (getRecentEvents c8wState "t" 2).2 = c8wState := by
  have h := (c8_getRecentEvents_amended c8wState "t" 2 (by decide)).1 c8Topic (by decide)
  exact ⟨h.1.trans (by decide), h.2.2.2⟩

theorem appendEventTopic_status (t : TopicState) (ev : ConversationEvent) :
    (appendEventTopic t ev).status = statusStep t.status ev.kind := by
  cases hk : ev.kind with
  | message lvl =>
    by_cases hj : lvl = some AgentLevel.junior
    · by_cases hp : t.status = TopicStatus.pending
      · simp [appendEventTopic, hk, statusStep, hj, hp]
      · simp [appendEventTopic, hk, statusStep, hj, hp]
    · by_cases hp : t.status = TopicStatus.pending
      · simp [appendEventTopic, hk, statusStep, hj, hp]
      · simp [appendEventTopic, hk, statusStep, hj, hp]
  | toolCall => simp [appendEventTopic, hk, statusStep]
  | toolResult => simp [appendEventTopic, hk, statusStep]
  | handoff => simp [appendEventTopic, hk, statusStep]
  | statusEv s => simp [appendEventTopic, hk, statusStep]
  | humanInput => simp [appendEventTopic, hk, statusStep]

theorem applyEventsTopic_status (evs : List ConversationEvent) :
    ∀ t : TopicState, (applyEventsTopic t evs).status
      = (evs.map ConversationEvent.kind).foldl statusStep t.status := by
  induction evs with
  | nil => intro t; rfl
  | cons e rest ih =>
    intro t
    show (applyEventsTopic (appendEventTopic t e) rest).status = _
    rw [ih (appendEventTopic t e), appendEventTopic_status]
    rfl

/-- C9: topic status derivation depends only on the sequence of event
kinds (with their author levels and status payloads): replaying event
lists that agree on those projections over freshly created topics ends in
the same status, whatever the bodies, timestamps or topic ids are. -/
theorem c9_status_replay_deterministic (tid1 title1 tid2 title2 : String)
    (evs1 evs2 : List ConversationEvent)
    (h : evs1.map ConversationEvent.kind = evs2.map ConversationEvent.kind) :
    (applyEventsTopic (createTopic {} tid1 title1).1 evs1).status
      = (applyEventsTopic (createTopic {} tid2 title2).1 evs2).status := by
  rw [applyEventsTopic_status, applyEventsTopic_status, h]
  rfl

theorem c9_status_replay_deterministic_witness :
    (applyEventsTopic (createTopic {} "t" "T").1 c9Evs1).status
      = (applyEventsTopic (createTopic {} "u" "U").1 c9Evs2).status :=
  c9_status_replay_deterministic "t" "T" "u" "U" c9Evs1 c9Evs2 (by decide)

/-! ## Orchestrator deduplication-guardrail lemmas (C4) -/

/-- C4: the claim fails on the code.  After a duplicate sets the
awaiting-human-input flag, the very next agent turn whose output passes
the sanitization and duplicate checks clears the flag (line 211 of
`Orchestrator.ts`) and is processed normally — no human input is
involved. -/
theorem c4_flag_cleared_without_human_input :
    (processAgentOutput (processAgentOutput {} "a" "Alice" "x" false)
        "a" "Alice" "x" false).awaitingHumanInput = true
  ∧ (processAgentOutput
        (processAgentOutput (processAgentOutput {} "a" "Alice" "x" false)
          "a" "Alice" "x" false)
        "b" "Bob" "y" false).awaitingHumanInput = false := by
  decide

/-- C4 (amended): a sanitized output equal to the agent's immediately
preceding message is suppressed — only the system notice is appended —
and the awaiting-human-input flag becomes true; however the flag does not
stop queued turns, and it is cleared not only by real human input but also
by the next agent output that passes the sanitization, duplicate and
error-content checks (and by a successful fallback substitution). -/
theorem c4_duplicate_suppression_amended (st : OrchState)
    (agentId agentName sanitized : String) (fallbackOk : Bool) :
    (sanitized ≠ "" → mapGet st.lastAgentMessages agentId = some sanitized →
      processAgentOutput st agentId agentName sanitized fallbackOk
        = { st with
            events := st.events ++ [.sysNotice (repeatedNotice agentName sanitized)],
            awaitingHumanInput := true })
  ∧ (sanitized ≠ "" → mapGet st.lastAgentMessages agentId ≠ some sanitized →
      strStartsWith (strLower sanitized) "error:" = false →
      (processAgentOutput st agentId agentName sanitized fallbackOk).awaitingHumanInput
        = false) := by
  constructor
  · intro hne hdup
    unfold processAgentOutput
    rw [if_neg hne, if_pos hdup]
    rfl
  · intro hne hndup herr
    unfold processAgentOutput
    rw [if_neg hne, if_neg hndup, if_neg (by simp [herr])]

theorem c4_duplicate_suppression_amended_witness :
    processAgentOutput c4wState "a" "Alice" "x" false
      = { c4wState with
          events := c4wState.events ++ [.sysNotice (repeatedNotice "Alice" "x")],
          awaitingHumanInput := true }
  ∧ (processAgentOutput c4wState "b" "Bob" "y" false).awaitingHumanInput = false :=
  ⟨(c4_duplicate_suppression_amended c4wState "a" "Alice" "x" false).1
      (by decide) (by decide),
   (c4_duplicate_suppression_amended c4wState "b" "Bob" "y" false).2
      (by decide) (by decide) (by decide)⟩

end TokWorks
